import Mathlib

/-!
Verification of the segmentation engine of `reccon` (`src/seg.rs`).

The engine classifies incoming PCM chunks as quiet or hot, applies
hysteresis, and emits `Start`/`Data`/`End` lifecycle events.  Chunks are
modelled as lists of bytes (`List Nat`, each entry a byte value), machine
integers as `Nat`/`Int` with explicit wrapping where overflow matters, and
the panicking paths of the Rust code (`c[1]` out of bounds in the sample
decoder on odd-length input, the `assert!` on chunk length) as `Option`.
-/

/-- Mirrors `seg.rs` `Config` (counters as `Nat`, `threshold: i16` as `Int`). -/
structure Config where
  chunk_size : Nat
  max_total_chunks : Nat
  min_hot_chunks : Nat
  max_quiet_chunks : Nat
  threshold : Int
deriving DecidableEq, Repr

/-- Mirrors `seg.rs` `enum State`. -/
inductive State where
  | Quiet : State
  | Pending (id : String) (total_chunks : Nat) (consecutive_hot_chunks : Nat) : State
  | Active (total_chunks : Nat) (consecutive_quiet_chunks : Nat) : State
deriving DecidableEq, Repr

/-- Mirrors `seg.rs` `enum Event`; the borrowed `Data(&[u8])` payload is the
byte list it denotes. -/
inductive Event where
  | Start (id : String) : Event
  | Data (bytes : List Nat) : Event
  | End : Event
deriving DecidableEq, Repr

/-- Mirrors `seg.rs` `struct Segmentation`. -/
structure Segmentation where
  config : Config
  state : State
  last_chunk : List Nat
  pending_buf : List Nat
deriving DecidableEq, Repr

/-- `i16::from_le_bytes([b0, b1])`: two bytes to a signed 16-bit value. -/
def i16_of_le (b0 b1 : Nat) : Int :=
  let u : Nat := b0 % 256 + 256 * (b1 % 256)
  if u < 32768 then (u : Int) else (u : Int) - 65536

/-- `i16::abs` with its wrapping overflow semantics: the absolute value of
`i16::MIN` cannot be represented and wraps back to `i16::MIN` (release
builds; debug builds panic at that point). -/
def i16_abs (z : Int) : Int :=
  if z = -32768 then -32768 else (z.natAbs : Int)

/-- The sample decoder inside `is_quiet`: `raw_audio.chunks(2).map(|c|
i16::from_le_bytes([c[0], c[1]]))`.  On an odd-length slice the final
two-byte window has a single byte and `c[1]` indexes out of bounds (a
panic), modelled as `none`. -/
def decode_samples : List Nat → Option (List Int)
  | [] => some []
  | [_] => none
  | b0 :: b1 :: rest => (decode_samples rest).map fun l => i16_of_le b0 b1 :: l

/-- `.max().unwrap_or(0)` over the absolute sample values. -/
def max_sample : List Int → Int
  | [] => 0
  | a :: rest => rest.foldl max a

/-- Mirrors `seg.rs` `fn is_quiet`: quiet iff the maximum absolute sample is
at most the threshold (`none` models the decoder panic on odd length). -/
def is_quiet (raw_audio : List Nat) (threshold : Int) : Option Bool :=
  (decode_samples raw_audio).map fun samples =>
    decide (max_sample (samples.map i16_abs) ≤ threshold)

/-- Mirrors `Segmentation::new`: `with_capacity` allocates empty buffers. -/
def Segmentation.new (config : Config) : Segmentation :=
  { config := config, state := State.Quiet, last_chunk := [], pending_buf := [] }

/-- First block of `Segmentation::accept` (seg.rs lines 96-108): on a hot
chunk while `Quiet`, call `gen_id`, clear `pending_buf` and refill it with
`last_chunk`, and move to `Pending`.  The returned flag records whether
`gen_id` was invoked. -/
def Segmentation.phase1 (s : Segmentation) (isq : Bool) (gen_id : String) :
    Segmentation × Bool :=
  match s.state with
  | State.Quiet =>
    if !isq then
      ({ s with
          pending_buf := s.last_chunk,
          state := State.Pending gen_id (if s.last_chunk.isEmpty then 0 else 1) 0 },
        true)
    else (s, false)
  | _ => (s, false)

/-- Second block of `Segmentation::accept` (seg.rs lines 110-135): while
`Pending`, a quiet chunk discards the burst; a hot chunk bumps
`consecutive_hot_chunks` and either promotes the burst (emitting `Start`
and `Data(pending_buf)`) or appends the chunk to `pending_buf`. -/
def Segmentation.phase2 (s : Segmentation) (chunk : List Nat) (isq : Bool) :
    List Event × Segmentation :=
  match s.state with
  | State.Pending id total hot =>
    if isq then ([], { s with state := State.Quiet })
    else
      if s.config.min_hot_chunks ≤ hot + 1 then
        ([Event.Start id, Event.Data s.pending_buf],
          { s with state := State.Active total 0 })
      else
        ([], { s with
                pending_buf := s.pending_buf ++ chunk,
                state := State.Pending id (total + 1) (hot + 1) })
  | _ => ([], s)

/-- Third block of `Segmentation::accept` (seg.rs lines 137-166): while
`Active`, bump `total_chunks`, emit `Data(chunk)`, update the quiet streak,
and emit `End` (returning to `Quiet`) when any termination condition holds. -/
def Segmentation.phase3 (s : Segmentation) (chunk : List Nat) (isq : Bool) :
    List Event × Segmentation :=
  match s.state with
  | State.Active total quiet =>
    let total1 := total + 1
    let quiet1 := if isq then quiet + 1 else 0
    if s.config.max_total_chunks ≤ total1 ∨ s.config.max_quiet_chunks ≤ quiet1 ∨
        chunk.isEmpty then
      ([Event.Data chunk, Event.End], { s with state := State.Quiet })
    else
      ([Event.Data chunk], { s with state := State.Active total1 quiet1 })
  | _ => ([], s)

/-- Mirrors `Segmentation::accept` (seg.rs lines 74-172).  `gen_id` is the
value the caller's `FnOnce` generator would return; the `Bool` component of
the result records whether it was invoked.  `none` models a panic: the
sample decoder's out-of-bounds index on odd length (evaluated first, as in
the source) or the failed `assert!` on an oversized chunk. -/
def Segmentation.accept (s : Segmentation) (chunk : List Nat) (gen_id : String) :
    Option (List Event × Segmentation × Bool) :=
  match is_quiet chunk s.config.threshold with
  | none => none
  | some isq =>
    if chunk.length ≤ s.config.chunk_size then
      let p1 := Segmentation.phase1 s isq gen_id
      let p2 := Segmentation.phase2 p1.1 chunk isq
      let p3 := Segmentation.phase3 p2.2 chunk isq
      some (p2.1 ++ p3.1, { p3.2 with last_chunk := chunk }, p1.2)
    else none

/-- Feed a list of `(chunk, generated id)` calls to the engine, collecting
the flattened event stream. -/
def run (s : Segmentation) : List (List Nat × String) → Option (List Event × Segmentation)
  | [] => some ([], s)
  | c :: rest =>
    match Segmentation.accept s c.1 c.2 with
    | none => none
    | some (evs, s1, _) =>
      match run s1 rest with
      | none => none
      | some (evs2, s2) => some (evs ++ evs2, s2)

/-- The chunks of a call list. -/
def chunksOf (calls : List (List Nat × String)) : List (List Nat) :=
  calls.map Prod.fst

/-- The pre-roll provided by a call history: its last chunk, or `[]` when
there is none. -/
def prerollOf (calls : List (List Nat × String)) : List Nat :=
  ((chunksOf calls).getLast?).getD []

/-- Concatenation of a list of chunks. -/
def joinChunks (l : List (List Nat)) : List Nat := l.flatten

/-- A chunk is well formed for a configuration when its byte length is even
(16-bit samples) and at most `chunk_size`. -/
def WFChunk (cfg : Config) (c : List Nat) : Prop :=
  c.length % 2 = 0 ∧ c.length ≤ cfg.chunk_size

/-- All chunks of a call list are well formed. -/
def WFCalls (cfg : Config) (calls : List (List Nat × String)) : Prop :=
  ∀ c ∈ calls, WFChunk cfg c.1

/-- `true` exactly on the `Active` variant. -/
def State.isActive : State → Bool
  | State.Active _ _ => true
  | _ => false

/-! ## Per-call branch equations

One equation per branch of `Segmentation::accept`, under the hypotheses
that pin the branch. -/

/-- `Quiet`, quiet chunk: no transition, no events. -/
theorem accept_eq_quiet_quiet (s : Segmentation) (chunk : List Nat) (g : String)
    (hs : s.state = State.Quiet)
    (hq : is_quiet chunk s.config.threshold = some true)
    (hlen : chunk.length ≤ s.config.chunk_size) :
    Segmentation.accept s chunk g = some ([], { s with last_chunk := chunk }, false) := by
  rcases s with ⟨cfg, st, lc, pb⟩
  simp only at hs hq hlen
  subst hs
  simp [Segmentation.accept, Segmentation.phase1, Segmentation.phase2,
    Segmentation.phase3, hq, hlen]

/-- `Quiet`, hot chunk, `min_hot_chunks > 1`: the burst becomes `Pending`;
`pending_buf` is re-seeded with `last_chunk` and the chunk appended. -/
theorem accept_eq_quiet_hot_stay (s : Segmentation) (chunk : List Nat) (g : String)
    (hs : s.state = State.Quiet)
    (hq : is_quiet chunk s.config.threshold = some false)
    (hlen : chunk.length ≤ s.config.chunk_size)
    (hmin : ¬ s.config.min_hot_chunks ≤ 1) :
    Segmentation.accept s chunk g =
      some ([],
        { s with
            pending_buf := s.last_chunk ++ chunk,
            state := State.Pending g ((if s.last_chunk.isEmpty then 0 else 1) + 1) 1,
            last_chunk := chunk },
        true) := by
  rcases s with ⟨cfg, st, lc, pb⟩
  simp only at hs hq hlen hmin
  subst hs
  simp [Segmentation.accept, Segmentation.phase1, Segmentation.phase2,
    Segmentation.phase3, hq, hlen, hmin]

/-- `Quiet`, hot chunk, `min_hot_chunks ≤ 1`, termination condition not yet
met: burst created and promoted in one call. -/
theorem accept_eq_quiet_hot_promote (s : Segmentation) (chunk : List Nat) (g : String)
    (hs : s.state = State.Quiet)
    (hq : is_quiet chunk s.config.threshold = some false)
    (hlen : chunk.length ≤ s.config.chunk_size)
    (hmin : s.config.min_hot_chunks ≤ 1)
    (hterm : ¬ (s.config.max_total_chunks ≤ (if s.last_chunk.isEmpty then 0 else 1) + 1 ∨
        s.config.max_quiet_chunks ≤ 0 ∨ chunk.isEmpty = true)) :
    Segmentation.accept s chunk g =
      some ([Event.Start g, Event.Data s.last_chunk, Event.Data chunk],
        { s with
            pending_buf := s.last_chunk,
            state := State.Active ((if s.last_chunk.isEmpty then 0 else 1) + 1) 0,
            last_chunk := chunk },
        true) := by
  rcases s with ⟨cfg, st, lc, pb⟩
  simp only at hs hq hlen hmin hterm
  subst hs
  simp [Segmentation.accept, Segmentation.phase1, Segmentation.phase2,
    Segmentation.phase3, hq, hlen, hmin]
  rw [if_neg]
  · simp
  · simpa using hterm

/-- `Quiet`, hot chunk, `min_hot_chunks ≤ 1`, termination condition met in
the same call: created, promoted and force-ended at once. -/
theorem accept_eq_quiet_hot_promote_end (s : Segmentation) (chunk : List Nat) (g : String)
    (hs : s.state = State.Quiet)
    (hq : is_quiet chunk s.config.threshold = some false)
    (hlen : chunk.length ≤ s.config.chunk_size)
    (hmin : s.config.min_hot_chunks ≤ 1)
    (hterm : s.config.max_total_chunks ≤ (if s.last_chunk.isEmpty then 0 else 1) + 1 ∨
        s.config.max_quiet_chunks ≤ 0 ∨ chunk.isEmpty = true) :
    Segmentation.accept s chunk g =
      some ([Event.Start g, Event.Data s.last_chunk, Event.Data chunk, Event.End],
        { s with
            pending_buf := s.last_chunk,
            state := State.Quiet,
            last_chunk := chunk },
        true) := by
  rcases s with ⟨cfg, st, lc, pb⟩
  simp only at hs hq hlen hmin hterm
  subst hs
  simp [Segmentation.accept, Segmentation.phase1, Segmentation.phase2,
    Segmentation.phase3, hq, hlen, hmin]
  rw [if_pos]
  · simp
  · simpa using hterm

/-- `Pending`, quiet chunk: the burst is discarded with no events;
`pending_buf` keeps its contents. -/
theorem accept_eq_pending_quiet (s : Segmentation) (chunk : List Nat) (g : String)
    (id : String) (t h : Nat) (hs : s.state = State.Pending id t h)
    (hq : is_quiet chunk s.config.threshold = some true)
    (hlen : chunk.length ≤ s.config.chunk_size) :
    Segmentation.accept s chunk g =
      some ([], { s with state := State.Quiet, last_chunk := chunk }, false) := by
  rcases s with ⟨cfg, st, lc, pb⟩
  simp only at hs hq hlen
  subst hs
  simp [Segmentation.accept, Segmentation.phase1, Segmentation.phase2,
    Segmentation.phase3, hq, hlen]

/-- `Pending`, hot chunk, activation threshold not yet reached: the chunk is
appended to `pending_buf`, no events. -/
theorem accept_eq_pending_hot_stay (s : Segmentation) (chunk : List Nat) (g : String)
    (id : String) (t h : Nat) (hs : s.state = State.Pending id t h)
    (hq : is_quiet chunk s.config.threshold = some false)
    (hlen : chunk.length ≤ s.config.chunk_size)
    (hmin : ¬ s.config.min_hot_chunks ≤ h + 1) :
    Segmentation.accept s chunk g =
      some ([],
        { s with
            pending_buf := s.pending_buf ++ chunk,
            state := State.Pending id (t + 1) (h + 1),
            last_chunk := chunk },
        false) := by
  rcases s with ⟨cfg, st, lc, pb⟩
  simp only at hs hq hlen hmin
  subst hs
  simp [Segmentation.accept, Segmentation.phase1, Segmentation.phase2,
    Segmentation.phase3, hq, hlen, hmin]

/-- `Pending`, hot chunk reaching `min_hot_chunks`, termination condition
not met: promotion.  `Start` and the buffered payload are emitted, then
`Data(chunk)`; `pending_buf` keeps its contents. -/
theorem accept_eq_pending_hot_promote (s : Segmentation) (chunk : List Nat) (g : String)
    (id : String) (t h : Nat) (hs : s.state = State.Pending id t h)
    (hq : is_quiet chunk s.config.threshold = some false)
    (hlen : chunk.length ≤ s.config.chunk_size)
    (hmin : s.config.min_hot_chunks ≤ h + 1)
    (hterm : ¬ (s.config.max_total_chunks ≤ t + 1 ∨
        s.config.max_quiet_chunks ≤ 0 ∨ chunk.isEmpty = true)) :
    Segmentation.accept s chunk g =
      some ([Event.Start id, Event.Data s.pending_buf, Event.Data chunk],
        { s with state := State.Active (t + 1) 0, last_chunk := chunk },
        false) := by
  rcases s with ⟨cfg, st, lc, pb⟩
  simp only at hs hq hlen hmin hterm
  subst hs
  simp [Segmentation.accept, Segmentation.phase1, Segmentation.phase2,
    Segmentation.phase3, hq, hlen, hmin]
  rw [if_neg]
  · simp
  · simpa using hterm

/-- `Pending`, hot chunk reaching `min_hot_chunks`, termination condition
met on the same call: promotion immediately followed by `End`. -/
theorem accept_eq_pending_hot_promote_end (s : Segmentation) (chunk : List Nat) (g : String)
    (id : String) (t h : Nat) (hs : s.state = State.Pending id t h)
    (hq : is_quiet chunk s.config.threshold = some false)
    (hlen : chunk.length ≤ s.config.chunk_size)
    (hmin : s.config.min_hot_chunks ≤ h + 1)
    (hterm : s.config.max_total_chunks ≤ t + 1 ∨
        s.config.max_quiet_chunks ≤ 0 ∨ chunk.isEmpty = true) :
    Segmentation.accept s chunk g =
      some ([Event.Start id, Event.Data s.pending_buf, Event.Data chunk, Event.End],
        { s with state := State.Quiet, last_chunk := chunk },
        false) := by
  rcases s with ⟨cfg, st, lc, pb⟩
  simp only at hs hq hlen hmin hterm
  subst hs
  simp [Segmentation.accept, Segmentation.phase1, Segmentation.phase2,
    Segmentation.phase3, hq, hlen, hmin]
  rw [if_pos]
  · simp
  · simpa using hterm

/-- `Active`, no termination condition: emit `Data(chunk)` and stay active
with updated counters. -/
theorem accept_eq_active_stay (s : Segmentation) (chunk : List Nat) (g : String)
    (isq : Bool) (t q : Nat) (hs : s.state = State.Active t q)
    (hq : is_quiet chunk s.config.threshold = some isq)
    (hlen : chunk.length ≤ s.config.chunk_size)
    (hterm : ¬ (s.config.max_total_chunks ≤ t + 1 ∨
        s.config.max_quiet_chunks ≤ (if isq then q + 1 else 0) ∨ chunk.isEmpty = true)) :
    Segmentation.accept s chunk g =
      some ([Event.Data chunk],
        { s with
            state := State.Active (t + 1) (if isq then q + 1 else 0),
            last_chunk := chunk },
        false) := by
  rcases s with ⟨cfg, st, lc, pb⟩
  simp only at hs hq hlen hterm
  subst hs
  simp [Segmentation.accept, Segmentation.phase1, Segmentation.phase2,
    Segmentation.phase3, hq, hlen]
  rw [if_neg]
  · simp
  · simpa using hterm

/-- `Active`, termination condition met after accounting for this chunk:
emit `Data(chunk)` then `End` and return to `Quiet`. -/
theorem accept_eq_active_end (s : Segmentation) (chunk : List Nat) (g : String)
    (isq : Bool) (t q : Nat) (hs : s.state = State.Active t q)
    (hq : is_quiet chunk s.config.threshold = some isq)
    (hlen : chunk.length ≤ s.config.chunk_size)
    (hterm : s.config.max_total_chunks ≤ t + 1 ∨
        s.config.max_quiet_chunks ≤ (if isq then q + 1 else 0) ∨ chunk.isEmpty = true) :
    Segmentation.accept s chunk g =
      some ([Event.Data chunk, Event.End],
        { s with state := State.Quiet, last_chunk := chunk },
        false) := by
  rcases s with ⟨cfg, st, lc, pb⟩
  simp only at hs hq hlen hterm
  subst hs
  simp [Segmentation.accept, Segmentation.phase1, Segmentation.phase2,
    Segmentation.phase3, hq, hlen]
  rw [if_pos]
  · simp
  · simpa using hterm

/-! ## Totality and frame facts -/

theorem phase1_config (s : Segmentation) (isq : Bool) (g : String) :
    ((Segmentation.phase1 s isq g).1).config = s.config := by
  rcases s with ⟨cfg, st, lc, pb⟩
  cases st <;> simp only [Segmentation.phase1] <;> (repeat' split) <;> rfl

theorem phase2_config (s : Segmentation) (chunk : List Nat) (isq : Bool) :
    ((Segmentation.phase2 s chunk isq).2).config = s.config := by
  rcases s with ⟨cfg, st, lc, pb⟩
  cases st <;> simp only [Segmentation.phase2] <;> (repeat' split) <;> rfl

theorem phase3_config (s : Segmentation) (chunk : List Nat) (isq : Bool) :
    ((Segmentation.phase3 s chunk isq).2).config = s.config := by
  rcases s with ⟨cfg, st, lc, pb⟩
  cases st <;> simp only [Segmentation.phase3] <;> (repeat' split) <;> rfl

theorem accept_config (s : Segmentation) (chunk : List Nat) (g : String)
    (evs : List Event) (s' : Segmentation) (called : Bool)
    (heq : Segmentation.accept s chunk g = some (evs, s', called)) :
    s'.config = s.config := by
  unfold Segmentation.accept at heq
  rcases hq : is_quiet chunk s.config.threshold with _ | isq <;> rw [hq] at heq
  · exact absurd heq (by simp)
  · dsimp only at heq
    by_cases hlen : chunk.length ≤ s.config.chunk_size
    · rw [if_pos hlen] at heq
      simp only [Option.some.injEq, Prod.mk.injEq] at heq
      obtain ⟨-, hs, -⟩ := heq
      rw [← hs]
      show ((Segmentation.phase3 (Segmentation.phase2
          (Segmentation.phase1 s isq g).1 chunk isq).2 chunk isq).2).config = s.config
      rw [phase3_config, phase2_config, phase1_config]
    · rw [if_neg hlen] at heq
      exact absurd heq (by simp)

theorem decode_samples_isSome (l : List Nat) :
    (decode_samples l).isSome ↔ l.length % 2 = 0 := by
  induction l using decode_samples.induct with
  | case1 => simp [decode_samples]
  | case2 x => simp [decode_samples]
  | case3 b0 b1 rest ih =>
    rcases hr : decode_samples rest with _ | v <;>
      simp [decode_samples, hr, Nat.add_mod] <;> simp [hr] at ih <;> omega

theorem is_quiet_isSome (raw : List Nat) (threshold : Int) :
    (is_quiet raw threshold).isSome ↔ raw.length % 2 = 0 := by
  rw [← decode_samples_isSome]
  unfold is_quiet
  rcases decode_samples raw with _ | v <;> simp

/-- Claim C9: `accept` completes normally exactly when the chunk is of even
byte length (otherwise the sample decoder indexes `c[1]` out of bounds) and
no longer than `chunk_size` (otherwise the `assert!` fails); under those two
preconditions no panicking branch is reachable. -/
theorem accept_isSome_iff (s : Segmentation) (chunk : List Nat) (g : String) :
    (Segmentation.accept s chunk g).isSome ↔
      chunk.length % 2 = 0 ∧ chunk.length ≤ s.config.chunk_size := by
  unfold Segmentation.accept
  rcases hq : is_quiet chunk s.config.threshold with _ | isq
  · have hodd : ¬ chunk.length % 2 = 0 := by
      rw [← is_quiet_isSome chunk s.config.threshold, hq]
      simp
    simp [hodd]
  · have heven : chunk.length % 2 = 0 := by
      rw [← is_quiet_isSome chunk s.config.threshold, hq]
      simp
    by_cases hlen : chunk.length ≤ s.config.chunk_size <;> simp [hlen, heven]

/-- Claim C8: whatever branch of the state machine executed, `accept`
finishes by overwriting `last_chunk` with a copy of the current chunk. -/
theorem accept_sets_last_chunk (s : Segmentation) (chunk : List Nat) (g : String)
    (evs : List Event) (s' : Segmentation) (called : Bool)
    (heq : Segmentation.accept s chunk g = some (evs, s', called)) :
    s'.last_chunk = chunk := by
  unfold Segmentation.accept at heq
  rcases hq : is_quiet chunk s.config.threshold with _ | isq <;> rw [hq] at heq
  · exact absurd heq (by simp)
  · dsimp only at heq
    by_cases hlen : chunk.length ≤ s.config.chunk_size
    · rw [if_pos hlen] at heq
      simp only [Option.some.injEq, Prod.mk.injEq] at heq
      obtain ⟨-, hs, -⟩ := heq
      rw [← hs]
    · rw [if_neg hlen] at heq
      exact absurd heq (by simp)

/-- Claim C3 evidence: the chunk holding the single sample `-32768`
(`i16::MIN`, bytes `[0x00, 0x80]`) is classified quiet at threshold `0`,
although the absolute value of that sample, `32768`, exceeds the threshold:
`i16::abs` wraps at `i16::MIN` (and panics in debug builds). -/
theorem is_quiet_abs_overflow :
    is_quiet [0, 128] 0 = some true ∧
    decode_samples [0, 128] = some [-32768] ∧
    ¬ (((-32768 : Int).natAbs : Int) ≤ 0) := by
  refine ⟨by decide, by decide, by decide⟩

theorem accept_decompose (s : Segmentation) (chunk : List Nat) (g : String) (isq : Bool)
    (hq : is_quiet chunk s.config.threshold = some isq)
    (hlen : chunk.length ≤ s.config.chunk_size) :
    Segmentation.accept s chunk g =
      some ((Segmentation.phase2 (Segmentation.phase1 s isq g).1 chunk isq).1 ++
          (Segmentation.phase3
            (Segmentation.phase2 (Segmentation.phase1 s isq g).1 chunk isq).2 chunk isq).1,
        { (Segmentation.phase3
            (Segmentation.phase2 (Segmentation.phase1 s isq g).1 chunk isq).2 chunk isq).2 with
          last_chunk := chunk },
        (Segmentation.phase1 s isq g).2) := by
  unfold Segmentation.accept
  rw [hq]
  dsimp only
  rw [if_pos hlen]

theorem accept_some_len (s : Segmentation) (chunk : List Nat) (g : String)
    (r : List Event × Segmentation × Bool)
    (heq : Segmentation.accept s chunk g = some r) :
    chunk.length ≤ s.config.chunk_size := by
  unfold Segmentation.accept at heq
  rcases hq : is_quiet chunk s.config.threshold with _ | isq <;> rw [hq] at heq
  · exact absurd heq (by simp)
  · dsimp only at heq
    by_cases hlen : chunk.length ≤ s.config.chunk_size
    · exact hlen
    · rw [if_neg hlen] at heq
      exact absurd heq (by simp)

theorem phase1_called (s : Segmentation) (isq : Bool) (g : String) :
    (Segmentation.phase1 s isq g).2 = true ↔ s.state = State.Quiet ∧ isq = false := by
  rcases s with ⟨cfg, st, lc, pb⟩
  cases st <;> cases isq <;> simp [Segmentation.phase1]

theorem phase1_state (s : Segmentation) (isq : Bool) (g : String) :
    (Segmentation.phase1 s isq g).1.state =
      (if s.state = State.Quiet ∧ isq = false then
        State.Pending g (if s.last_chunk.isEmpty then 0 else 1) 0
      else s.state) := by
  rcases s with ⟨cfg, st, lc, pb⟩
  cases st <;> cases isq <;> simp [Segmentation.phase1]

theorem phase2_events (s : Segmentation) (chunk : List Nat) (isq : Bool) :
    (Segmentation.phase2 s chunk isq).1 = [] ∨
    ∃ i, (Segmentation.phase2 s chunk isq).1 =
      [Event.Start i, Event.Data s.pending_buf] := by
  rcases s with ⟨cfg, st, lc, pb⟩
  cases st
  · simp [Segmentation.phase2]
  case Pending id t h =>
    cases isq
    · by_cases hmin : cfg.min_hot_chunks ≤ h + 1 <;> simp [Segmentation.phase2, hmin]
    · simp [Segmentation.phase2]
  · simp [Segmentation.phase2]

theorem phase3_events (s : Segmentation) (chunk : List Nat) (isq : Bool) :
    (Segmentation.phase3 s chunk isq).1 = [] ∨
    (Segmentation.phase3 s chunk isq).1 = [Event.Data chunk] ∨
    (Segmentation.phase3 s chunk isq).1 = [Event.Data chunk, Event.End] := by
  rcases s with ⟨cfg, st, lc, pb⟩
  cases st
  · simp [Segmentation.phase3]
  case Pending id t h => simp [Segmentation.phase3]
  case Active t q =>
    by_cases hterm : cfg.max_total_chunks ≤ t + 1 ∨
        cfg.max_quiet_chunks ≤ (if isq then q + 1 else 0) ∨ chunk = [] <;>
      simp [Segmentation.phase3, hterm]

theorem phase2_start_mem (s : Segmentation) (chunk : List Nat) (isq : Bool) (i : String)
    (hmem : Event.Start i ∈ (Segmentation.phase2 s chunk isq).1) :
    ∃ t h, s.state = State.Pending i t h := by
  rcases s with ⟨cfg, st, lc, pb⟩
  cases st <;> simp only [Segmentation.phase2] at hmem
  · simp at hmem
  case Pending id t h =>
    cases isq
    · by_cases hmin : cfg.min_hot_chunks ≤ h + 1 <;> simp [hmin] at hmem
      exact ⟨t, h, by simp [hmem]⟩
    · simp at hmem
  · simp at hmem

theorem phase3_no_start (s : Segmentation) (chunk : List Nat) (isq : Bool) (i : String) :
    Event.Start i ∉ (Segmentation.phase3 s chunk isq).1 := by
  rcases phase3_events s chunk isq with h | h | h <;> simp [h]

/-! ## Claim theorems: discard and id generation -/

/-- Claim C6: while `Pending`, a quiet chunk discards the burst: `accept`
emits no events (in particular no `Start`, so the burst's id is never
surfaced), resets the state to `Quiet`, and only `last_chunk` is otherwise
updated; a burst that goes quiet before `min_hot_chunks` consecutive hot
chunks therefore never emits a `Start`. -/
theorem pending_quiet_discards (s : Segmentation) (chunk : List Nat) (g : String)
    (id : String) (t h : Nat) (hs : s.state = State.Pending id t h)
    (hq : is_quiet chunk s.config.threshold = some true)
    (hlen : chunk.length ≤ s.config.chunk_size) :
    Segmentation.accept s chunk g =
      some ([], { s with state := State.Quiet, last_chunk := chunk }, false) :=
  accept_eq_pending_quiet s chunk g id t h hs hq hlen

/-- Claim C7: the id generator is consumed exactly on calls where the state
is `Quiet` and the chunk is hot (the `Quiet → Pending` transition, hence at
most once per call and never at promotion), and any `Start` event carries
either the id stored in the `Pending` state when the burst was created or,
for a same-call creation and promotion, the id generated on this call. -/
theorem gen_id_invocation (s : Segmentation) (chunk : List Nat) (g : String)
    (isq : Bool) (evs : List Event) (s' : Segmentation) (called : Bool)
    (hq : is_quiet chunk s.config.threshold = some isq)
    (heq : Segmentation.accept s chunk g = some (evs, s', called)) :
    (called = true ↔ s.state = State.Quiet ∧ isq = false) ∧
    (∀ i, Event.Start i ∈ evs →
      (s.state = State.Quiet ∧ isq = false ∧ i = g) ∨
      ∃ t h, s.state = State.Pending i t h) := by
  have hlen := accept_some_len s chunk g _ heq
  rw [accept_decompose s chunk g isq hq hlen] at heq
  simp only [Option.some.injEq, Prod.mk.injEq] at heq
  obtain ⟨hevs, -, hcalled⟩ := heq
  constructor
  · rw [← hcalled]
    exact phase1_called s isq g
  · intro i hi
    rw [← hevs] at hi
    rcases List.mem_append.mp hi with hi2 | hi3
    · obtain ⟨t, h, hp⟩ := phase2_start_mem _ chunk isq i hi2
      rw [phase1_state] at hp
      by_cases hcase : s.state = State.Quiet ∧ isq = false
      · rw [if_pos hcase] at hp
        simp only [State.Pending.injEq] at hp
        exact Or.inl ⟨hcase.1, hcase.2, hp.1.symm⟩
      · rw [if_neg hcase] at hp
        exact Or.inr ⟨t, h, hp⟩
    · exact absurd hi3 (phase3_no_start _ chunk isq i)

/-! ## Claim theorems: buffer clearing, event bound, termination, boundary -/

theorem phase3_eq_end (s : Segmentation) (chunk : List Nat) (isq : Bool) (t q : Nat)
    (hs : s.state = State.Active t q)
    (hterm : s.config.max_total_chunks ≤ t + 1 ∨
      s.config.max_quiet_chunks ≤ (if isq then q + 1 else 0) ∨ chunk = []) :
    Segmentation.phase3 s chunk isq =
      ([Event.Data chunk, Event.End], { s with state := State.Quiet }) := by
  rcases s with ⟨cfg, st, lc, pb⟩
  simp only at hs hterm
  subst hs
  simp [Segmentation.phase3, hterm]

theorem phase3_eq_stay (s : Segmentation) (chunk : List Nat) (isq : Bool) (t q : Nat)
    (hs : s.state = State.Active t q)
    (hterm : ¬ (s.config.max_total_chunks ≤ t + 1 ∨
      s.config.max_quiet_chunks ≤ (if isq then q + 1 else 0) ∨ chunk = [])) :
    Segmentation.phase3 s chunk isq =
      ([Event.Data chunk],
        { s with state := State.Active (t + 1) (if isq then q + 1 else 0) }) := by
  rcases s with ⟨cfg, st, lc, pb⟩
  simp only at hs hterm
  subst hs
  simp [Segmentation.phase3, hterm]

/-- Claim C1 amended: `pending_buf` is written only when a new burst seeds
it at the `Quiet → Pending` transition (re-seeded with `last_chunk`, plus
the chunk when the burst is not promoted in the same call); it is NOT
cleared at promotion to `Active` nor at discard back to `Quiet`, where it
retains its previous contents. -/
theorem pending_buf_write_sites (s : Segmentation) (chunk : List Nat) (g : String)
    (isq : Bool) (evs : List Event) (s' : Segmentation) (called : Bool)
    (hq : is_quiet chunk s.config.threshold = some isq)
    (heq : Segmentation.accept s chunk g = some (evs, s', called)) :
    ((s.state = State.Quiet ∧ isq = true) → s'.pending_buf = s.pending_buf) ∧
    (∀ t q, s.state = State.Active t q → s'.pending_buf = s.pending_buf) ∧
    (∀ i t h, s.state = State.Pending i t h → isq = true →
      s'.state = State.Quiet ∧ s'.pending_buf = s.pending_buf) ∧
    (∀ i t h, s.state = State.Pending i t h → isq = false →
      s.config.min_hot_chunks ≤ h + 1 → s'.pending_buf = s.pending_buf) ∧
    (s.state = State.Quiet → isq = false →
      s'.pending_buf = s.last_chunk ∨ s'.pending_buf = s.last_chunk ++ chunk) := by
  have hlen := accept_some_len s chunk g _ heq
  refine ⟨?_, ?_, ?_, ?_, ?_⟩
  · rintro ⟨hsq, hisq⟩
    subst hisq
    rw [accept_eq_quiet_quiet s chunk g hsq hq hlen] at heq
    simp only [Option.some.injEq, Prod.mk.injEq] at heq
    obtain ⟨-, hs', -⟩ := heq
    rw [← hs']
  · intro t q hsa
    by_cases hterm : s.config.max_total_chunks ≤ t + 1 ∨
        s.config.max_quiet_chunks ≤ (if isq then q + 1 else 0) ∨ chunk.isEmpty = true
    · rw [accept_eq_active_end s chunk g isq t q hsa hq hlen hterm] at heq
      simp only [Option.some.injEq, Prod.mk.injEq] at heq
      obtain ⟨-, hs', -⟩ := heq
      rw [← hs']
    · rw [accept_eq_active_stay s chunk g isq t q hsa hq hlen hterm] at heq
      simp only [Option.some.injEq, Prod.mk.injEq] at heq
      obtain ⟨-, hs', -⟩ := heq
      rw [← hs']
  · intro i t h hsp hisq
    subst hisq
    rw [accept_eq_pending_quiet s chunk g i t h hsp hq hlen] at heq
    simp only [Option.some.injEq, Prod.mk.injEq] at heq
    obtain ⟨-, hs', -⟩ := heq
    rw [← hs']
    exact ⟨rfl, rfl⟩
  · intro i t h hsp hisq hmin
    subst hisq
    by_cases hterm : s.config.max_total_chunks ≤ t + 1 ∨
        s.config.max_quiet_chunks ≤ 0 ∨ chunk.isEmpty = true
    · rw [accept_eq_pending_hot_promote_end s chunk g i t h hsp hq hlen hmin hterm] at heq
      simp only [Option.some.injEq, Prod.mk.injEq] at heq
      obtain ⟨-, hs', -⟩ := heq
      rw [← hs']
    · rw [accept_eq_pending_hot_promote s chunk g i t h hsp hq hlen hmin hterm] at heq
      simp only [Option.some.injEq, Prod.mk.injEq] at heq
      obtain ⟨-, hs', -⟩ := heq
      rw [← hs']
  · intro hsq hisq
    subst hisq
    by_cases hmin : s.config.min_hot_chunks ≤ 1
    · by_cases hterm : s.config.max_total_chunks ≤ (if s.last_chunk.isEmpty then 0 else 1) + 1 ∨
          s.config.max_quiet_chunks ≤ 0 ∨ chunk.isEmpty = true
      · rw [accept_eq_quiet_hot_promote_end s chunk g hsq hq hlen hmin hterm] at heq
        simp only [Option.some.injEq, Prod.mk.injEq] at heq
        obtain ⟨-, hs', -⟩ := heq
        rw [← hs']
        exact Or.inl rfl
      · rw [accept_eq_quiet_hot_promote s chunk g hsq hq hlen hmin hterm] at heq
        simp only [Option.some.injEq, Prod.mk.injEq] at heq
        obtain ⟨-, hs', -⟩ := heq
        rw [← hs']
        exact Or.inl rfl
    · rw [accept_eq_quiet_hot_stay s chunk g hsq hq hlen hmin] at heq
      simp only [Option.some.injEq, Prod.mk.injEq] at heq
      obtain ⟨-, hs', -⟩ := heq
      rw [← hs']
      exact Or.inr rfl

/-- Claim C2 amended: a single `accept` call returns at most 4 events, and
at most 2 when it emits no `Start` (the 4-event case is the call that
promotes a pending burst and immediately force-ends the segment: `Start`,
`Data(pending_buf)`, `Data(chunk)`, `End`). -/
theorem accept_event_bound (s : Segmentation) (chunk : List Nat) (g : String)
    (evs : List Event) (s' : Segmentation) (called : Bool)
    (heq : Segmentation.accept s chunk g = some (evs, s', called)) :
    evs.length ≤ 4 ∧ ((∀ i, Event.Start i ∉ evs) → evs.length ≤ 2) := by
  rcases hq : is_quiet chunk s.config.threshold with _ | isq
  · unfold Segmentation.accept at heq
    rw [hq] at heq
    exact absurd heq (by simp)
  · have hlen := accept_some_len s chunk g _ heq
    rw [accept_decompose s chunk g isq hq hlen] at heq
    simp only [Option.some.injEq, Prod.mk.injEq] at heq
    obtain ⟨hevs, -, -⟩ := heq
    rcases phase2_events (Segmentation.phase1 s isq g).1 chunk isq with h2 | ⟨i, h2⟩ <;>
      rcases phase3_events
        (Segmentation.phase2 (Segmentation.phase1 s isq g).1 chunk isq).2 chunk isq with
        h3 | h3 | h3
    all_goals rw [← hevs, h2, h3]
    all_goals constructor
    · simp
    · intro; simp
    · simp
    · intro; simp
    · simp
    · intro; simp
    · simp
    · intro hni
      exact absurd (by simp) (hni i)
    · simp
    · intro hni
      exact absurd (by simp) (hni i)
    · simp
    · intro hni
      exact absurd (by simp) (hni i)

/-- Claim C5: on any call whose state after the first two transition blocks
is `Active t q`, the call emits `End` exactly when, after counting this
chunk (`t + 1`) and updating the quiet streak, one of the three termination
conditions holds; at most one `End` is emitted, the `End` (when emitted) is
the final event, directly preceded by `Data(chunk)`, and the engine returns
to `Quiet` (so no further `Data` of this segment can follow); otherwise the
engine stays `Active` with the updated counters. -/
theorem active_end_characterization (s : Segmentation) (chunk : List Nat) (g : String)
    (isq : Bool) (t q : Nat) (evs : List Event) (s' : Segmentation) (called : Bool)
    (hq : is_quiet chunk s.config.threshold = some isq)
    (hmid : (Segmentation.phase2 (Segmentation.phase1 s isq g).1 chunk isq).2.state =
      State.Active t q)
    (heq : Segmentation.accept s chunk g = some (evs, s', called)) :
    (Event.End ∈ evs ↔ (s.config.max_total_chunks ≤ t + 1 ∨
      s.config.max_quiet_chunks ≤ (if isq then q + 1 else 0) ∨ chunk = [])) ∧
    evs.count Event.End ≤ 1 ∧
    ((s.config.max_total_chunks ≤ t + 1 ∨
        s.config.max_quiet_chunks ≤ (if isq then q + 1 else 0) ∨ chunk = []) →
      (∃ pre, evs = pre ++ [Event.Data chunk, Event.End] ∧ Event.End ∉ pre) ∧
      s'.state = State.Quiet) ∧
    (¬ (s.config.max_total_chunks ≤ t + 1 ∨
        s.config.max_quiet_chunks ≤ (if isq then q + 1 else 0) ∨ chunk = []) →
      Event.End ∉ evs ∧ s'.state = State.Active (t + 1) (if isq then q + 1 else 0)) := by
  have hlen := accept_some_len s chunk g _ heq
  rw [accept_decompose s chunk g isq hq hlen] at heq
  simp only [Option.some.injEq, Prod.mk.injEq] at heq
  obtain ⟨hevs, hs', -⟩ := heq
  have hcfg2 : (Segmentation.phase2 (Segmentation.phase1 s isq g).1 chunk isq).2.config =
      s.config := by
    rw [phase2_config, phase1_config]
  by_cases hterm : s.config.max_total_chunks ≤ t + 1 ∨
      s.config.max_quiet_chunks ≤ (if isq then q + 1 else 0) ∨ chunk = []
  · have h3 := phase3_eq_end
      (Segmentation.phase2 (Segmentation.phase1 s isq g).1 chunk isq).2 chunk isq t q hmid
      (by rw [hcfg2]; exact hterm)
    have hevs2 : evs =
        (Segmentation.phase2 (Segmentation.phase1 s isq g).1 chunk isq).1 ++
          [Event.Data chunk, Event.End] := by
      rw [← hevs, h3]
    have hnoend : Event.End ∉
        (Segmentation.phase2 (Segmentation.phase1 s isq g).1 chunk isq).1 := by
      rcases phase2_events (Segmentation.phase1 s isq g).1 chunk isq with h2 | ⟨i, h2⟩ <;>
        simp [h2]
    refine ⟨?_, ?_, ?_, ?_⟩
    · simp [hevs2, hterm]
    · rw [hevs2, List.count_append]
      have : List.count Event.End
          (Segmentation.phase2 (Segmentation.phase1 s isq g).1 chunk isq).1 = 0 :=
        List.count_eq_zero.mpr hnoend
      simp [this]
    · intro
      refine ⟨⟨_, hevs2, hnoend⟩, ?_⟩
      rw [← hs', h3]
    · intro hcon
      exact absurd hterm hcon
  · have h3 := phase3_eq_stay
      (Segmentation.phase2 (Segmentation.phase1 s isq g).1 chunk isq).2 chunk isq t q hmid
      (by rw [hcfg2]; exact hterm)
    have hevs2 : evs =
        (Segmentation.phase2 (Segmentation.phase1 s isq g).1 chunk isq).1 ++
          [Event.Data chunk] := by
      rw [← hevs, h3]
    have hnoend : Event.End ∉ evs := by
      rw [hevs2]
      rcases phase2_events (Segmentation.phase1 s isq g).1 chunk isq with h2 | ⟨i, h2⟩ <;>
        simp [h2]
    refine ⟨?_, ?_, ?_, ?_⟩
    · simp [hterm, hnoend]
    · rw [List.count_eq_zero.mpr hnoend]
      omega
    · intro hcon
      exact absurd hcon hterm
    · intro
      refine ⟨hnoend, ?_⟩
      rw [← hs', h3]

/-- Claim C10: when a call from `Active` emits `End`, that call's chunk was
emitted as `Data` and is saved as `last_chunk`; if the next chunk is hot,
the new burst's pre-roll seed in `pending_buf` is exactly that final chunk,
so consecutive segments' payloads overlap in one duplicated chunk. -/
theorem segment_boundary_overlap (s : Segmentation) (c1 c2 : List Nat) (g1 g2 : String)
    (t q : Nat) (evs1 evs2 : List Event) (s1 s2 : Segmentation) (b1 b2 : Bool)
    (hs : s.state = State.Active t q)
    (h1 : Segmentation.accept s c1 g1 = some (evs1, s1, b1))
    (hEnd : Event.End ∈ evs1)
    (hq2 : is_quiet c2 s1.config.threshold = some false)
    (h2 : Segmentation.accept s1 c2 g2 = some (evs2, s2, b2)) :
    Event.Data c1 ∈ evs1 ∧ s1.last_chunk = c1 ∧ s1.state = State.Quiet ∧
    (s2.pending_buf = c1 ∨ s2.pending_buf = c1 ++ c2) := by
  rcases hq1 : is_quiet c1 s.config.threshold with _ | isq1
  · unfold Segmentation.accept at h1
    rw [hq1] at h1
    exact absurd h1 (by simp)
  · have hlen1 := accept_some_len s c1 g1 _ h1
    by_cases hterm1 : s.config.max_total_chunks ≤ t + 1 ∨
        s.config.max_quiet_chunks ≤ (if isq1 then q + 1 else 0) ∨ c1.isEmpty = true
    · rw [accept_eq_active_end s c1 g1 isq1 t q hs hq1 hlen1 hterm1] at h1
      simp only [Option.some.injEq, Prod.mk.injEq] at h1
      obtain ⟨hevs1, hs1, -⟩ := h1
      have hlast : s1.last_chunk = c1 := by rw [← hs1]
      have hstate : s1.state = State.Quiet := by rw [← hs1]
      have hdata : Event.Data c1 ∈ evs1 := by rw [← hevs1]; simp
      refine ⟨hdata, hlast, hstate, ?_⟩
      have hlen2 := accept_some_len s1 c2 g2 _ h2
      by_cases hmin : s1.config.min_hot_chunks ≤ 1
      · by_cases hterm2 : s1.config.max_total_chunks ≤
            (if s1.last_chunk.isEmpty then 0 else 1) + 1 ∨
            s1.config.max_quiet_chunks ≤ 0 ∨ c2.isEmpty = true
        · rw [accept_eq_quiet_hot_promote_end s1 c2 g2 hstate hq2 hlen2 hmin hterm2] at h2
          simp only [Option.some.injEq, Prod.mk.injEq] at h2
          obtain ⟨-, hs2, -⟩ := h2
          left
          rw [← hs2, ← hlast]
        · rw [accept_eq_quiet_hot_promote s1 c2 g2 hstate hq2 hlen2 hmin hterm2] at h2
          simp only [Option.some.injEq, Prod.mk.injEq] at h2
          obtain ⟨-, hs2, -⟩ := h2
          left
          rw [← hs2, ← hlast]
      · rw [accept_eq_quiet_hot_stay s1 c2 g2 hstate hq2 hlen2 hmin] at h2
        simp only [Option.some.injEq, Prod.mk.injEq] at h2
        obtain ⟨-, hs2, -⟩ := h2
        right
        rw [← hs2, ← hlast]
    · rw [accept_eq_active_stay s c1 g1 isq1 t q hs hq1 hlen1 hterm1] at h1
      simp only [Option.some.injEq, Prod.mk.injEq] at h1
      obtain ⟨hevs1, -, -⟩ := h1
      rw [← hevs1] at hEnd
      simp at hEnd

/-! ## Concrete configurations and states for counterexamples and witnesses -/

/-- Tiny config: one hot chunk suffices for promotion. -/
def cfgA : Config :=
  { chunk_size := 2, max_total_chunks := 10, min_hot_chunks := 1,
    max_quiet_chunks := 10, threshold := 0 }

/-- Config where `min_hot_chunks = 2` and `max_total_chunks = 3` coincide at
the promotion boundary. -/
def cfgB : Config :=
  { chunk_size := 2, max_total_chunks := 3, min_hot_chunks := 2,
    max_quiet_chunks := 5, threshold := 0 }

/-- Config with a one-chunk quiet streak limit. -/
def cfgD : Config :=
  { chunk_size := 2, max_total_chunks := 10, min_hot_chunks := 2,
    max_quiet_chunks := 1, threshold := 0 }

/-- Config with a two-chunk total cap. -/
def cfgE : Config :=
  { chunk_size := 2, max_total_chunks := 2, min_hot_chunks := 1,
    max_quiet_chunks := 10, threshold := 0 }

/-- A `Pending` state with a buffered pre-roll and one hot chunk. -/
def segPend : Segmentation :=
  { config := cfgB, state := State.Pending "x" 2 1,
    last_chunk := [0, 1], pending_buf := [0, 0, 0, 1] }

/-- The engine state reached from `Segmentation.new cfgA` after one hot
chunk `[0, 1]`. -/
def segActA : Segmentation :=
  { config := cfgA, state := State.Active 1 0, last_chunk := [0, 1], pending_buf := [] }

/-- An `Active` state one quiet chunk away from the streak limit of `cfgD`. -/
def segAct3 : Segmentation :=
  { config := cfgD, state := State.Active 3 0,
    last_chunk := [0, 1], pending_buf := [0, 0, 0, 1] }

/-- The state after `segAct3` absorbs the quiet chunk `[0, 0]`. -/
def segAct3After : Segmentation :=
  { config := cfgD, state := State.Quiet, last_chunk := [0, 0],
    pending_buf := [0, 0, 0, 1] }

/-- An `Active` state one chunk away from the total cap of `cfgE`. -/
def segActE : Segmentation :=
  { config := cfgE, state := State.Active 1 0, last_chunk := [0, 1], pending_buf := [] }

/-- The state after `segActE` ends its segment on chunk `[1, 1]`. -/
def segActEAfter : Segmentation :=
  { config := cfgE, state := State.Quiet, last_chunk := [1, 1], pending_buf := [] }

/-- The state two calls after `segActEAfter`: a hot chunk re-seeded the
pre-roll and was immediately promoted and capped. -/
def segActE2 : Segmentation :=
  { config := cfgE, state := State.Quiet, last_chunk := [0, 1], pending_buf := [1, 1] }

/-! ## Counterexamples and witnesses -/

/-- Claim C1 counterexample: from `Segmentation.new cfgA`, feeding a quiet
chunk then a hot chunk reaches a state that is `Active` while `pending_buf`
(still holding the promoted burst's payload) is non-empty — refuting
"`pending_buf` is non-empty iff the state is `Pending`" and "cleared on
promotion". -/
theorem pending_buf_invariant_cex :
    (run (Segmentation.new cfgA) [([0, 0], "a"), ([0, 1], "b")]).map
      (fun p => (p.2.pending_buf.isEmpty, p.2.state.isActive)) = some (false, true) := by
  decide

theorem pending_buf_write_sites_witness :
    ((segPend.state = State.Quiet ∧ true = true) →
      segAct3After.pending_buf = segPend.pending_buf) ∧
    (∀ t q, segPend.state = State.Active t q →
      segAct3After.pending_buf = segPend.pending_buf) ∧
    (∀ i t h, segPend.state = State.Pending i t h → true = true →
      segAct3After.state = State.Quiet ∧ segAct3After.pending_buf = segPend.pending_buf) ∧
    (∀ i t h, segPend.state = State.Pending i t h → true = false →
      segPend.config.min_hot_chunks ≤ h + 1 →
      segAct3After.pending_buf = segPend.pending_buf) ∧
    (segPend.state = State.Quiet → true = false →
      segAct3After.pending_buf = segPend.last_chunk ∨
      segAct3After.pending_buf = segPend.last_chunk ++ [0, 0]) := by
  have hw := pending_buf_write_sites segPend [0, 0] "g" true []
    { segPend with state := State.Quiet, last_chunk := [0, 0] } false
    (by decide) (by decide)
  exact hw

/-- Claim C2 counterexample: from `Segmentation.new cfgB` (where
`min_hot_chunks = 2` meets `max_total_chunks = 3`), after a quiet and a hot
chunk, the next hot chunk's `accept` call returns 4 events
(`Start`, `Data`, `Data`, `End`), not at most 3. -/
theorem accept_event_bound_cex :
    ((run (Segmentation.new cfgB) [([0, 0], "a"), ([0, 1], "b")]).bind fun p =>
      (Segmentation.accept p.2 [0, 1] "c").map fun r => decide (r.1.length ≤ 3)) =
      some false := by
  decide

theorem accept_event_bound_witness :
    ([Event.Start "a", Event.Data [], Event.Data [0, 1]] : List Event).length ≤ 4 ∧
    ((∀ i, Event.Start i ∉
        ([Event.Start "a", Event.Data [], Event.Data [0, 1]] : List Event)) →
      ([Event.Start "a", Event.Data [], Event.Data [0, 1]] : List Event).length ≤ 2) :=
  accept_event_bound (Segmentation.new cfgA) [0, 1] "a"
    [Event.Start "a", Event.Data [], Event.Data [0, 1]] segActA true (by decide)

theorem pending_quiet_discards_witness :
    Segmentation.accept segPend [0, 0] "g" =
      some ([], { segPend with state := State.Quiet, last_chunk := [0, 0] }, false) :=
  pending_quiet_discards segPend [0, 0] "g" "x" 2 1 rfl (by decide) (by decide)

theorem gen_id_invocation_witness :
    (true = true ↔ (Segmentation.new cfgA).state = State.Quiet ∧ false = false) ∧
    (∀ i, Event.Start i ∈
        ([Event.Start "a", Event.Data [], Event.Data [0, 1]] : List Event) →
      ((Segmentation.new cfgA).state = State.Quiet ∧ false = false ∧ i = "a") ∨
      ∃ t h, (Segmentation.new cfgA).state = State.Pending i t h) :=
  gen_id_invocation (Segmentation.new cfgA) [0, 1] "a" false
    [Event.Start "a", Event.Data [], Event.Data [0, 1]] segActA true
    (by decide) (by decide)

theorem accept_sets_last_chunk_witness : segActA.last_chunk = [0, 1] :=
  accept_sets_last_chunk (Segmentation.new cfgA) [0, 1] "a"
    [Event.Start "a", Event.Data [], Event.Data [0, 1]] segActA true (by decide)

theorem active_end_characterization_witness :
    (Event.End ∈ ([Event.Data [0, 0], Event.End] : List Event) ↔
      (segAct3.config.max_total_chunks ≤ 3 + 1 ∨
        segAct3.config.max_quiet_chunks ≤ (if true then 0 + 1 else 0) ∨
        ([0, 0] : List Nat) = [])) ∧
    ([Event.Data [0, 0], Event.End] : List Event).count Event.End ≤ 1 ∧
    ((segAct3.config.max_total_chunks ≤ 3 + 1 ∨
        segAct3.config.max_quiet_chunks ≤ (if true then 0 + 1 else 0) ∨
        ([0, 0] : List Nat) = []) →
      (∃ pre, ([Event.Data [0, 0], Event.End] : List Event) =
          pre ++ [Event.Data [0, 0], Event.End] ∧ Event.End ∉ pre) ∧
      segAct3After.state = State.Quiet) ∧
    (¬ (segAct3.config.max_total_chunks ≤ 3 + 1 ∨
        segAct3.config.max_quiet_chunks ≤ (if true then 0 + 1 else 0) ∨
        ([0, 0] : List Nat) = []) →
      Event.End ∉ ([Event.Data [0, 0], Event.End] : List Event) ∧
      segAct3After.state = State.Active (3 + 1) (if true then 0 + 1 else 0)) :=
  active_end_characterization segAct3 [0, 0] "g" true 3 0
    [Event.Data [0, 0], Event.End] segAct3After false
    (by decide) (by decide) (by decide)

theorem segment_boundary_overlap_witness :
    Event.Data [1, 1] ∈ ([Event.Data [1, 1], Event.End] : List Event) ∧
    segActEAfter.last_chunk = [1, 1] ∧ segActEAfter.state = State.Quiet ∧
    (segActE2.pending_buf = [1, 1] ∨ segActE2.pending_buf = [1, 1] ++ [0, 1]) :=
  segment_boundary_overlap segActE [1, 1] [0, 1] "a" "b" 1 0
    [Event.Data [1, 1], Event.End]
    [Event.Start "b", Event.Data [1, 1], Event.Data [0, 1], Event.End]
    segActEAfter segActE2 false true
    rfl (by decide) (by decide) (by decide) (by decide)

/-! ## Stream completeness (claim C4)

A promoted segment's payload is characterised by `BurstPayload`: the
pre-roll provided by the calls before the burst, followed by every chunk of
a contiguous, nonempty suffix of calls whose first chunk is hot. -/

/-- `payload` is the pre-roll of `before` plus every chunk fed from the
first (hot) chunk of the burst to the end of `calls`. -/
def BurstPayload (cfg : Config) (calls : List (List Nat × String))
    (payload : List Nat) : Prop :=
  ∃ before c0 g0 btl, calls = before ++ (c0, g0) :: btl ∧
    is_quiet c0 cfg.threshold = some false ∧
    payload = prerollOf before ++ joinChunks (chunksOf ((c0, g0) :: btl))

/-- The payload list `ds` of a closed segment covers a contiguous burst of
some prefix of `calls` (the burst ran to the call on which `End` fired). -/
def GoodSeg (cfg : Config) (calls : List (List Nat × String))
    (ds : List (List Nat)) : Prop :=
  ∃ calls0 after, calls = calls0 ++ after ∧ BurstPayload cfg calls0 (joinChunks ds)

/-- An event stream made of complete `Start … Data* … End` segments, each
with a `GoodSeg` payload. -/
inductive GoodStream (cfg : Config) (calls : List (List Nat × String)) :
    List Event → Prop
  | nil : GoodStream cfg calls []
  | seg (id : String) (ds : List (List Nat)) (rest : List Event) :
      GoodSeg cfg calls ds → GoodStream cfg calls rest →
      GoodStream cfg calls (Event.Start id :: (ds.map Event.Data ++ Event.End :: rest))

/-- A still-open segment: a `Start` followed only by `Data` events, whose
payload is the burst running to the end of `calls`. -/
def OpenSeg (cfg : Config) (calls : List (List Nat × String))
    (evs : List Event) : Prop :=
  ∃ id ds, evs = Event.Start id :: ds.map Event.Data ∧
    BurstPayload cfg calls (joinChunks ds)

/-- Invariant tying the engine state reached from `Segmentation.new cfg`
after `calls` to the flat event stream `evs` it produced. -/
def SegInv (cfg : Config) (calls : List (List Nat × String)) (evs : List Event)
    (s : Segmentation) : Prop :=
  s.config = cfg ∧ s.last_chunk = prerollOf calls ∧
  (s.state = State.Quiet → GoodStream cfg calls evs) ∧
  (∀ i t h, s.state = State.Pending i t h →
    GoodStream cfg calls evs ∧ BurstPayload cfg calls s.pending_buf) ∧
  (∀ t q, s.state = State.Active t q →
    ∃ closed opn, evs = closed ++ opn ∧ GoodStream cfg calls closed ∧
      OpenSeg cfg calls opn)

theorem prerollOf_snoc (calls : List (List Nat × String)) (c : List Nat × String) :
    prerollOf (calls ++ [c]) = c.1 := by
  simp [prerollOf, chunksOf]

theorem BurstPayload_extend (cfg : Config) (calls : List (List Nat × String))
    (p : List Nat) (c : List Nat × String) (h : BurstPayload cfg calls p) :
    BurstPayload cfg (calls ++ [c]) (p ++ c.1) := by
  obtain ⟨before, c0, g0, btl, hcalls, hhot, hpay⟩ := h
  refine ⟨before, c0, g0, btl ++ [c], by simp [hcalls], hhot, ?_⟩
  subst hpay
  simp [chunksOf, joinChunks]

theorem BurstPayload_new (cfg : Config) (calls : List (List Nat × String))
    (c : List Nat × String) (hhot : is_quiet c.1 cfg.threshold = some false) :
    BurstPayload cfg (calls ++ [c]) (prerollOf calls ++ c.1) := by
  refine ⟨calls, c.1, c.2, [], by simp, hhot, ?_⟩
  simp [chunksOf, joinChunks]

theorem GoodSeg_mono (cfg : Config) (calls l : List (List Nat × String))
    (ds : List (List Nat)) (h : GoodSeg cfg calls ds) : GoodSeg cfg (calls ++ l) ds := by
  obtain ⟨calls0, after, hcalls, hbp⟩ := h
  exact ⟨calls0, after ++ l, by simp [hcalls], hbp⟩

theorem GoodSeg_of_BurstPayload (cfg : Config) (calls : List (List Nat × String))
    (ds : List (List Nat)) (h : BurstPayload cfg calls (joinChunks ds)) :
    GoodSeg cfg calls ds :=
  ⟨calls, [], by simp, h⟩

theorem GoodStream_mono (cfg : Config) (calls l : List (List Nat × String))
    (evs : List Event) (h : GoodStream cfg calls evs) : GoodStream cfg (calls ++ l) evs := by
  induction h with
  | nil => exact GoodStream.nil
  | seg id ds rest hseg _ ih =>
    exact GoodStream.seg id ds rest (GoodSeg_mono cfg calls l ds hseg) ih

theorem GoodStream_append (cfg : Config) (calls : List (List Nat × String))
    (e1 e2 : List Event) (h1 : GoodStream cfg calls e1) (h2 : GoodStream cfg calls e2) :
    GoodStream cfg calls (e1 ++ e2) := by
  induction h1 with
  | nil => simpa using h2
  | seg id ds rest hseg _ ih =>
    have := GoodStream.seg id ds (rest ++ e2) hseg ih
    simpa [List.append_assoc] using this

theorem GoodStream_single (cfg : Config) (calls : List (List Nat × String))
    (id : String) (ds : List (List Nat)) (h : GoodSeg cfg calls ds) :
    GoodStream cfg calls (Event.Start id :: (ds.map Event.Data ++ [Event.End])) :=
  GoodStream.seg id ds [] h GoodStream.nil

theorem run_snoc (s : Segmentation) (calls : List (List Nat × String))
    (c : List Nat × String) :
    run s (calls ++ [c]) =
      match run s calls with
      | none => none
      | some (evs, s1) =>
        match Segmentation.accept s1 c.1 c.2 with
        | none => none
        | some (evs2, s2, _) => some (evs ++ evs2, s2) := by
  induction calls generalizing s with
  | nil =>
    rcases h : Segmentation.accept s c.1 c.2 with _ | ⟨evs2, s2, b⟩ <;>
      simp [run, h]
  | cons hd tl ih =>
    rcases h : Segmentation.accept s hd.1 hd.2 with _ | ⟨evs2, s2, b⟩ <;>
      simp only [List.cons_append, run, h]
    simp only [List.append_eq]
    rw [ih]
    rcases h2 : run s2 tl with _ | ⟨evs3, s3⟩ <;> simp
    rcases h3 : Segmentation.accept s3 c.1 c.2 with _ | ⟨evs4, s4, b4⟩ <;> simp

theorem run_inv (cfg : Config) (calls : List (List Nat × String))
    (hwf : WFCalls cfg calls) :
    ∃ evs s, run (Segmentation.new cfg) calls = some (evs, s) ∧
      SegInv cfg calls evs s := by
  induction calls using List.reverseRecOn with
  | nil =>
    refine ⟨[], Segmentation.new cfg, rfl, rfl, rfl, ?_, ?_, ?_⟩
    · intro
      exact GoodStream.nil
    · intro i t h hco
      exact absurd hco (by simp [Segmentation.new])
    · intro t q hco
      exact absurd hco (by simp [Segmentation.new])
  | append_singleton calls c ih =>
    have hwf2 : WFCalls cfg calls := fun x hx => hwf x (by simp [hx])
    obtain ⟨evs, s, hrun, hcfg, hlast, hquiet, hpend, hact⟩ := ih hwf2
    obtain ⟨heven, hlenc⟩ := hwf c (by simp)
    have hlen : c.1.length ≤ s.config.chunk_size := by rw [hcfg]; exact hlenc
    obtain ⟨b, hq⟩ : ∃ b, is_quiet c.1 s.config.threshold = some b := by
      have hm := (is_quiet_isSome c.1 s.config.threshold).mpr heven
      rcases hx : is_quiet c.1 s.config.threshold with _ | b
      · rw [hx] at hm
        exact absurd hm (by simp)
      · exact ⟨b, rfl⟩
    have hqc : is_quiet c.1 cfg.threshold = some b := by rw [← hcfg]; exact hq
    rcases hstc : s.state with _ | ⟨i, t, h⟩ | ⟨t, q⟩
    · -- state Quiet
      cases b
      · -- hot chunk
        by_cases hmin : s.config.min_hot_chunks ≤ 1
        · by_cases hterm : s.config.max_total_chunks ≤
              (if s.last_chunk.isEmpty then 0 else 1) + 1 ∨
              s.config.max_quiet_chunks ≤ 0 ∨ c.1.isEmpty = true
          · -- created, promoted, ended in one call
            have hacc := accept_eq_quiet_hot_promote_end s c.1 c.2 hstc hq hlen hmin hterm
            refine ⟨evs ++ [Event.Start c.2, Event.Data s.last_chunk,
                Event.Data c.1, Event.End],
              { config := s.config, state := State.Quiet, last_chunk := c.1,
                pending_buf := s.last_chunk },
              ?_, hcfg, by rw [prerollOf_snoc], ?_, ?_, ?_⟩
            · rw [run_snoc]
              simp only [hrun, hacc]
            · intro
              refine GoodStream_append cfg _ _ _
                (GoodStream_mono cfg calls [c] evs (hquiet hstc)) ?_
              have hseg : GoodSeg cfg (calls ++ [c]) [s.last_chunk, c.1] := by
                apply GoodSeg_of_BurstPayload
                have hj : joinChunks [s.last_chunk, c.1] = prerollOf calls ++ c.1 := by
                  simp [joinChunks, hlast]
                rw [hj]
                exact BurstPayload_new cfg calls c hqc
              exact GoodStream_single cfg (calls ++ [c]) c.2 [s.last_chunk, c.1] hseg
            · intro i t h hco
              exact absurd hco (by simp)
            · intro t q hco
              exact absurd hco (by simp)
          · -- created and promoted in one call, still open
            have hacc := accept_eq_quiet_hot_promote s c.1 c.2 hstc hq hlen hmin hterm
            refine ⟨evs ++ [Event.Start c.2, Event.Data s.last_chunk, Event.Data c.1],
              { config := s.config,
                state := State.Active ((if s.last_chunk.isEmpty then 0 else 1) + 1) 0,
                last_chunk := c.1, pending_buf := s.last_chunk },
              ?_, hcfg, by rw [prerollOf_snoc], ?_, ?_, ?_⟩
            · rw [run_snoc]
              simp only [hrun, hacc]
            · intro hco
              exact absurd hco (by simp)
            · intro i t h hco
              exact absurd hco (by simp)
            · intro t' q' _
              refine ⟨evs, [Event.Start c.2, Event.Data s.last_chunk, Event.Data c.1],
                rfl, GoodStream_mono cfg calls [c] evs (hquiet hstc), ?_⟩
              refine ⟨c.2, [s.last_chunk, c.1], by simp, ?_⟩
              have hj : joinChunks [s.last_chunk, c.1] = prerollOf calls ++ c.1 := by
                simp [joinChunks, hlast]
              rw [hj]
              exact BurstPayload_new cfg calls c hqc
        · -- becomes pending
          have hacc := accept_eq_quiet_hot_stay s c.1 c.2 hstc hq hlen hmin
          refine ⟨evs ++ [],
            { config := s.config,
              state := State.Pending c.2 ((if s.last_chunk.isEmpty then 0 else 1) + 1) 1,
              last_chunk := c.1, pending_buf := s.last_chunk ++ c.1 },
            ?_, hcfg, by rw [prerollOf_snoc], ?_, ?_, ?_⟩
          · rw [run_snoc]
            simp only [hrun, hacc]
          · intro hco
            exact absurd hco (by simp)
          · intro i t h _
            refine ⟨by simpa using GoodStream_mono cfg calls [c] evs (hquiet hstc), ?_⟩
            show BurstPayload cfg (calls ++ [c]) (s.last_chunk ++ c.1)
            rw [hlast]
            exact BurstPayload_new cfg calls c hqc
          · intro t q hco
            exact absurd hco (by simp)
      · -- quiet chunk, stays quiet
        have hacc := accept_eq_quiet_quiet s c.1 c.2 hstc hq hlen
        refine ⟨evs ++ [],
          { config := s.config, state := s.state, last_chunk := c.1,
            pending_buf := s.pending_buf },
          ?_, hcfg, by rw [prerollOf_snoc], ?_, ?_, ?_⟩
        · rw [run_snoc]
          simp only [hrun, hacc]
        · intro
          simpa using GoodStream_mono cfg calls [c] evs (hquiet hstc)
        · intro i t h hco
          simp only at hco
          rw [hstc] at hco
          exact absurd hco (by simp)
        · intro t q hco
          simp only at hco
          rw [hstc] at hco
          exact absurd hco (by simp)
    · -- state Pending i t h
      cases b
      · -- hot chunk
        by_cases hmin : s.config.min_hot_chunks ≤ h + 1
        · by_cases hterm : s.config.max_total_chunks ≤ t + 1 ∨
              s.config.max_quiet_chunks ≤ 0 ∨ c.1.isEmpty = true
          · -- promoted and ended in one call
            have hacc := accept_eq_pending_hot_promote_end s c.1 c.2 i t h hstc hq hlen
              hmin hterm
            obtain ⟨hgs, hbp⟩ := hpend i t h hstc
            refine ⟨evs ++ [Event.Start i, Event.Data s.pending_buf,
                Event.Data c.1, Event.End],
              { config := s.config, state := State.Quiet, last_chunk := c.1,
                pending_buf := s.pending_buf },
              ?_, hcfg, by rw [prerollOf_snoc], ?_, ?_, ?_⟩
            · rw [run_snoc]
              simp only [hrun, hacc]
            · intro
              refine GoodStream_append cfg _ _ _
                (GoodStream_mono cfg calls [c] evs hgs) ?_
              have hseg : GoodSeg cfg (calls ++ [c]) [s.pending_buf, c.1] := by
                apply GoodSeg_of_BurstPayload
                have hj : joinChunks [s.pending_buf, c.1] = s.pending_buf ++ c.1 := by
                  simp [joinChunks]
                rw [hj]
                exact BurstPayload_extend cfg calls s.pending_buf c hbp
              exact GoodStream_single cfg (calls ++ [c]) i [s.pending_buf, c.1] hseg
            · intro i' t' h' hco
              exact absurd hco (by simp)
            · intro t' q' hco
              exact absurd hco (by simp)
          · -- promoted, still open
            have hacc := accept_eq_pending_hot_promote s c.1 c.2 i t h hstc hq hlen
              hmin hterm
            obtain ⟨hgs, hbp⟩ := hpend i t h hstc
            refine ⟨evs ++ [Event.Start i, Event.Data s.pending_buf, Event.Data c.1],
              { config := s.config, state := State.Active (t + 1) 0, last_chunk := c.1,
                pending_buf := s.pending_buf },
              ?_, hcfg, by rw [prerollOf_snoc], ?_, ?_, ?_⟩
            · rw [run_snoc]
              simp only [hrun, hacc]
            · intro hco
              exact absurd hco (by simp)
            · intro i' t' h' hco
              exact absurd hco (by simp)
            · intro t' q' _
              refine ⟨evs, [Event.Start i, Event.Data s.pending_buf, Event.Data c.1],
                rfl, GoodStream_mono cfg calls [c] evs hgs, ?_⟩
              refine ⟨i, [s.pending_buf, c.1], by simp, ?_⟩
              have hj : joinChunks [s.pending_buf, c.1] = s.pending_buf ++ c.1 := by
                simp [joinChunks]
              rw [hj]
              exact BurstPayload_extend cfg calls s.pending_buf c hbp
        · -- stays pending, chunk appended
          have hacc := accept_eq_pending_hot_stay s c.1 c.2 i t h hstc hq hlen hmin
          obtain ⟨hgs, hbp⟩ := hpend i t h hstc
          refine ⟨evs ++ [],
            { config := s.config, state := State.Pending i (t + 1) (h + 1),
              last_chunk := c.1, pending_buf := s.pending_buf ++ c.1 },
            ?_, hcfg, by rw [prerollOf_snoc], ?_, ?_, ?_⟩
          · rw [run_snoc]
            simp only [hrun, hacc]
          · intro hco
            exact absurd hco (by simp)
          · intro i' t' h' _
            refine ⟨by simpa using GoodStream_mono cfg calls [c] evs hgs, ?_⟩
            show BurstPayload cfg (calls ++ [c]) (s.pending_buf ++ c.1)
            exact BurstPayload_extend cfg calls s.pending_buf c hbp
          · intro t' q' hco
            exact absurd hco (by simp)
      · -- quiet chunk: discard
        have hacc := accept_eq_pending_quiet s c.1 c.2 i t h hstc hq hlen
        obtain ⟨hgs, -⟩ := hpend i t h hstc
        refine ⟨evs ++ [],
          { config := s.config, state := State.Quiet, last_chunk := c.1,
            pending_buf := s.pending_buf },
          ?_, hcfg, by rw [prerollOf_snoc], ?_, ?_, ?_⟩
        · rw [run_snoc]
          simp only [hrun, hacc]
        · intro
          simpa using GoodStream_mono cfg calls [c] evs hgs
        · intro i' t' h' hco
          exact absurd hco (by simp)
        · intro t' q' hco
          exact absurd hco (by simp)
    · -- state Active t q
      obtain ⟨closed, opn, hevs, hclosed, id0, ds, hopn, hbp⟩ := hact t q hstc
      by_cases hterm : s.config.max_total_chunks ≤ t + 1 ∨
          s.config.max_quiet_chunks ≤ (if b then q + 1 else 0) ∨ c.1.isEmpty = true
      · -- segment ends
        have hacc := accept_eq_active_end s c.1 c.2 b t q hstc hq hlen hterm
        refine ⟨evs ++ [Event.Data c.1, Event.End],
          { config := s.config, state := State.Quiet, last_chunk := c.1,
            pending_buf := s.pending_buf },
          ?_, hcfg, by rw [prerollOf_snoc], ?_, ?_, ?_⟩
        · rw [run_snoc]
          simp only [hrun, hacc]
        · intro
          have hseg : GoodSeg cfg (calls ++ [c]) (ds ++ [c.1]) := by
            apply GoodSeg_of_BurstPayload
            have hj : joinChunks (ds ++ [c.1]) = joinChunks ds ++ c.1 := by
              simp [joinChunks]
            rw [hj]
            exact BurstPayload_extend cfg calls (joinChunks ds) c hbp
          have hone := GoodStream_single cfg (calls ++ [c]) id0 (ds ++ [c.1]) hseg
          have hsplit : evs ++ [Event.Data c.1, Event.End] =
              closed ++ (Event.Start id0 ::
                ((ds ++ [c.1]).map Event.Data ++ [Event.End])) := by
            rw [hevs, hopn]
            simp [List.append_assoc]
          rw [hsplit]
          exact GoodStream_append cfg _ _ _
            (GoodStream_mono cfg calls [c] closed hclosed) hone
        · intro i' t' h' hco
          exact absurd hco (by simp)
        · intro t' q' hco
          exact absurd hco (by simp)
      · -- segment continues
        have hacc := accept_eq_active_stay s c.1 c.2 b t q hstc hq hlen hterm
        refine ⟨evs ++ [Event.Data c.1],
          { config := s.config, state := State.Active (t + 1) (if b then q + 1 else 0),
            last_chunk := c.1, pending_buf := s.pending_buf },
          ?_, hcfg, by rw [prerollOf_snoc], ?_, ?_, ?_⟩
        · rw [run_snoc]
          simp only [hrun, hacc]
        · intro hco
          exact absurd hco (by simp)
        · intro i' t' h' hco
          exact absurd hco (by simp)
        · intro t' q' _
          refine ⟨closed, opn ++ [Event.Data c.1], by rw [hevs]; simp,
            GoodStream_mono cfg calls [c] closed hclosed, ?_⟩
          refine ⟨id0, ds ++ [c.1], by rw [hopn]; simp, ?_⟩
          have hj : joinChunks (ds ++ [c.1]) = joinChunks ds ++ c.1 := by
            simp [joinChunks]
          rw [hj]
          exact BurstPayload_extend cfg calls (joinChunks ds) c hbp

theorem append_cons_eq_append_cons {α : Type} (a : α) :
    ∀ (l1 r1 l2 r2 : List α), l1 ++ a :: r1 = l2 ++ a :: r2 → a ∉ l1 → a ∉ l2 →
      l1 = l2 ∧ r1 = r2 := by
  intro l1
  induction l1 with
  | nil =>
    intro r1 l2 r2 heq h1 h2
    cases l2 with
    | nil => simpa using heq
    | cons x l2t =>
      simp only [List.nil_append, List.cons_append, List.cons.injEq] at heq
      exact absurd (heq.1 ▸ List.mem_cons_self x l2t) (heq.1 ▸ h2)
  | cons x l1t ih =>
    intro r1 l2 r2 heq h1 h2
    cases l2 with
    | nil =>
      simp only [List.nil_append, List.cons_append, List.cons.injEq] at heq
      obtain ⟨hxa, -⟩ := heq
      subst hxa
      exact absurd (List.mem_cons_self x l1t) h1
    | cons y l2t =>
      simp only [List.cons_append, List.cons.injEq] at heq
      obtain ⟨hxy, htail⟩ := heq
      have h1t : a ∉ l1t := fun hm => h1 (List.mem_cons_of_mem x hm)
      have h2t : a ∉ l2t := fun hm => h2 (List.mem_cons_of_mem y hm)
      obtain ⟨he1, he2⟩ := ih r1 l2t r2 htail h1t h2t
      exact ⟨by rw [hxy, he1], he2⟩

theorem GoodStream_extract (cfg : Config) (calls : List (List Nat × String))
    (evs : List Event) (hgs : GoodStream cfg calls evs) :
    ∀ pre id mid post, evs = pre ++ Event.Start id :: (mid ++ Event.End :: post) →
      Event.End ∉ mid →
      ∃ ds, mid = ds.map Event.Data ∧ GoodSeg cfg calls ds := by
  induction hgs with
  | nil =>
    intro pre id mid post habs _
    exact absurd habs.symm (by simp)
  | seg id0 ds0 rest hseg hrest ih =>
    intro pre id mid post heq hnoend
    cases pre with
    | nil =>
      simp only [List.nil_append, List.cons.injEq] at heq
      obtain ⟨-, htail⟩ := heq
      have hnd : Event.End ∉ ds0.map Event.Data := by simp
      obtain ⟨hmid, -⟩ :=
        append_cons_eq_append_cons Event.End (ds0.map Event.Data) rest mid post
          htail hnd hnoend
      exact ⟨ds0, hmid.symm, hseg⟩
    | cons p0 pre2 =>
      simp only [List.cons_append, List.cons.injEq] at heq
      obtain ⟨-, htail⟩ := heq
      rcases List.append_eq_append_iff.mp htail with ⟨a2, ha1, ha2⟩ | ⟨c2, hc1, hc2⟩
      · -- the whole first segment sits inside the prefix
        cases a2 with
        | nil =>
          simp only [List.nil_append] at ha2
          exact absurd ha2 (by simp)
        | cons x a3 =>
          have hx : Event.End = x ∧
              rest = a3 ++ Event.Start id :: (mid ++ Event.End :: post) := by
            simpa using ha2
          exact ih a3 id mid post hx.2 hnoend
      · -- the claimed Start would sit inside the first segment's Data run
        cases c2 with
        | nil =>
          simp only [List.nil_append] at hc2
          exact absurd hc2 (by simp)
        | cons y c3 =>
          have hy : Event.Start id = y := by
            have hcc := hc2
            simp only [List.cons_append, List.cons.injEq] at hcc
            exact hcc.1
          have hmem : y ∈ ds0.map Event.Data := by
            rw [hc1]
            exact List.mem_append.mpr (Or.inr (List.mem_cons_self y c3))
          rw [← hy] at hmem
          simp at hmem

theorem SegInv_extract (cfg : Config) (calls : List (List Nat × String))
    (evs : List Event) (s : Segmentation) (hinv : SegInv cfg calls evs s) :
    ∀ pre id mid post, evs = pre ++ Event.Start id :: (mid ++ Event.End :: post) →
      Event.End ∉ mid →
      ∃ ds, mid = ds.map Event.Data ∧ GoodSeg cfg calls ds := by
  obtain ⟨-, -, hquiet, hpend, hact⟩ := hinv
  intro pre id mid post heq hnoend
  rcases hstc : s.state with _ | ⟨i, t, h⟩ | ⟨t, q⟩
  · exact GoodStream_extract cfg calls evs (hquiet hstc) pre id mid post heq hnoend
  · exact GoodStream_extract cfg calls evs (hpend i t h hstc).1 pre id mid post heq hnoend
  · obtain ⟨closed, opn, hevs, hclosed, id0, ds0, hopn, -⟩ := hact t q hstc
    have hB : closed ++ opn = ((pre ++ (Event.Start id :: mid)) ++ [Event.End]) ++ post := by
      rw [← hevs, heq]
      simp [List.append_assoc]
    rcases List.append_eq_append_iff.mp hB with ⟨w, hw1, hw2⟩ | ⟨w, hw1, hw2⟩
    · cases w with
      | nil =>
        rw [List.append_nil] at hw1
        have hclosed2 : closed = pre ++ Event.Start id :: (mid ++ Event.End :: []) := by
          rw [← hw1]
          simp [List.append_assoc]
        exact GoodStream_extract cfg calls closed hclosed pre id mid [] hclosed2 hnoend
      | cons x w2 =>
        exfalso
        have hlast1 : ((pre ++ (Event.Start id :: mid)) ++ [Event.End]).getLast? =
            some Event.End := List.getLast?_concat _
        have hlast2 : (closed ++ (x :: w2)).getLast? =
            (x :: w2).getLast?.or closed.getLast? := List.getLast?_append
        rw [hw1, hlast2] at hlast1
        obtain ⟨z, hz⟩ := Option.isSome_iff_exists.mp
          (List.getLast?_isSome.mpr (List.cons_ne_nil x w2))
        rw [hz] at hlast1
        simp at hlast1
        subst hlast1
        have hmem : Event.End ∈ opn := by
          rw [hw2]
          exact List.mem_append.mpr
            (Or.inl (List.mem_of_mem_getLast? (by simp [hz])))
        rw [hopn] at hmem
        simp at hmem
    · have hclosed2 : closed = pre ++ Event.Start id :: (mid ++ Event.End :: w) := by
        rw [hw1]
        simp [List.append_assoc]
      exact GoodStream_extract cfg calls closed hclosed pre id mid w hclosed2 hnoend

/-- Claim C4: for every well-formed input stream, and every `Start{id}` with
its matching `End` (the first `End` after it) in the flattened event
stream, the events between them are exactly `Data` events, and the
concatenation of their payloads is exactly the pre-roll chunk provided by
the calls before the burst (empty at stream start) followed by every chunk
fed from the burst's first (hot) chunk through the chunk on which
termination was decided — a contiguous range of the input, with no gaps or
duplicates. -/
theorem run_completeness (cfg : Config) (calls : List (List Nat × String))
    (hwf : WFCalls cfg calls) (evs : List Event) (s : Segmentation)
    (hrun : run (Segmentation.new cfg) calls = some (evs, s))
    (pre : List Event) (id : String) (mid post : List Event)
    (heq : evs = pre ++ Event.Start id :: (mid ++ Event.End :: post))
    (hnoend : Event.End ∉ mid) :
    ∃ ds before c0 g0 btl after,
      mid = ds.map Event.Data ∧
      calls = before ++ ((c0, g0) :: btl) ++ after ∧
      is_quiet c0 cfg.threshold = some false ∧
      joinChunks ds = prerollOf before ++ joinChunks (chunksOf ((c0, g0) :: btl)) := by
  obtain ⟨evs2, s2, hrun2, hinv⟩ := run_inv cfg calls hwf
  rw [hrun] at hrun2
  simp only [Option.some.injEq, Prod.mk.injEq] at hrun2
  obtain ⟨hevs2, -⟩ := hrun2
  subst hevs2
  obtain ⟨ds, hmid, calls0, after, hcalls0, hbp⟩ :=
    SegInv_extract cfg calls evs s2 hinv pre id mid post heq hnoend
  obtain ⟨before, c0, g0, btl, hcalls1, hhot, hpay⟩ := hbp
  refine ⟨ds, before, c0, g0, btl, after, hmid, ?_, hhot, hpay⟩
  rw [hcalls0, hcalls1]

theorem run_completeness_witness :
    ∃ ds before c0 g0 btl after,
      ([Event.Data [0, 0, 0, 1], Event.Data [0, 1], Event.Data [0, 0]] : List Event) =
        ds.map Event.Data ∧
      ([([0, 0], "a"), ([0, 1], "b"), ([0, 1], "c"), ([0, 0], "d")] :
          List (List Nat × String)) =
        before ++ ((c0, g0) :: btl) ++ after ∧
      is_quiet c0 cfgD.threshold = some false ∧
      joinChunks ds = prerollOf before ++ joinChunks (chunksOf ((c0, g0) :: btl)) :=
  run_completeness cfgD [([0, 0], "a"), ([0, 1], "b"), ([0, 1], "c"), ([0, 0], "d")]
    (by unfold WFCalls WFChunk; decide)
    [Event.Start "b", Event.Data [0, 0, 0, 1], Event.Data [0, 1],
      Event.Data [0, 0], Event.End]
    { config := cfgD, state := State.Quiet, last_chunk := [0, 0],
      pending_buf := [0, 0, 0, 1] }
    (by decide) []
    "b" [Event.Data [0, 0, 0, 1], Event.Data [0, 1], Event.Data [0, 0]] []
    (by decide) (by decide)
